import Mathlib

/-!
Verification of the cryptocrate file-encryption engine.

Files are modelled as `List Nat` of byte values; integers read from or
written to the container use explicit little-endian encodings with
`% 256^w` where the Rust code performs an integer cast.  The external
cryptographic crates (argon2, aes-gcm, zstd, rand) are not part of the
repository; they are modelled as executable idealized primitives that
satisfy exactly the functional contracts the repository relies on
(deterministic injective key derivation, AEAD round-trip with
fail-closed rejection of a wrong key, lossless compression with a
decompression size ceiling).  Everything else is translated from the
source in src/.
-/

namespace Cryptocrate

/-! ## Format constants (src/format.rs) -/

/-- Magic bytes identifying a CryptoCrate file: "CRAT". -/
def MAGIC_BYTES : List Nat := [0x43, 0x52, 0x41, 0x54]

/-- Current file format version. -/
def VERSION : Nat := 1

/-- Algorithm identifier for AES-256-GCM. -/
def ALGORITHM_AES256_GCM : Nat := 1

/-- Salt length for Argon2 (32 bytes). -/
def SALT_LENGTH : Nat := 32

/-- Nonce length for AES-GCM (12 bytes). -/
def NONCE_LENGTH : Nat := 12

/-- Maximum decompressed file size (1 GB safety limit), src/crypto/encryption.rs. -/
def MAX_DECOMPRESSED_SIZE : Nat := 1024 * 1024 * 1024

/-! ## Little-endian byte encodings -/

/-- `toLE k n` is the `k`-byte little-endian encoding of `n % 256^k`,
the meaning of Rust `to_le_bytes` together with an `as uK` truncating cast. -/
def toLE : Nat → Nat → List Nat
  | 0, _ => []
  | k + 1, n => n % 256 :: toLE k (n / 256)

/-- Little-endian value of a byte list, the meaning of Rust `from_le_bytes`. -/
def fromLE : List Nat → Nat
  | [] => 0
  | b :: bs => b + 256 * fromLE bs

@[simp] theorem length_toLE (k n : Nat) : (toLE k n).length = k := by
  induction k generalizing n with
  | zero => rfl
  | succ k ih => simp [toLE, ih]

theorem fromLE_toLE (k n : Nat) : fromLE (toLE k n) = n % 256 ^ k := by
  induction k generalizing n with
  | zero => simp [toLE, fromLE, Nat.mod_one]
  | succ k ih =>
    have h256 : (0:Nat) < 256 := by norm_num
    calc fromLE (toLE (k + 1) n) = n % 256 + 256 * (n / 256 % 256 ^ k) := by
          simp [toLE, fromLE, ih]
      _ = n % (256 * 256 ^ k) := (Nat.mod_mul).symm
      _ = n % 256 ^ (k + 1) := by ring_nf

theorem fromLE_toLE_of_lt {k n : Nat} (h : n < 256 ^ k) : fromLE (toLE k n) = n := by
  rw [fromLE_toLE, Nat.mod_eq_of_lt h]

/-! ## Reading an exact number of bytes (Rust `read_exact`) -/

/-- `read_exact n input` consumes exactly `n` bytes from the front of
`input`, failing (with an I/O error in the caller) when fewer are left. -/
def read_exact (n : Nat) (input : List Nat) : Option (List Nat × List Nat) :=
  if n ≤ input.length then some (input.take n, input.drop n) else none

theorem read_exact_append (a b : List Nat) :
    read_exact a.length (a ++ b) = some (a, b) := by
  unfold read_exact
  rw [if_pos (by simp)]
  rw [List.take_left, List.drop_left]

theorem read_exact_append_of_len {n : Nat} (a b : List Nat) (h : a.length = n) :
    read_exact n (a ++ b) = some (a, b) := by
  subst h; exact read_exact_append a b

/-! ## Self-delimiting list encoding

Used to build the idealized models of the external primitives: an
injective, prefix-unambiguous encoding of a byte list. -/

/-- Self-delimiting encoding: a unary length marker followed by the data. -/
def encodeL (a : List Nat) : List Nat := List.replicate a.length 1 ++ 0 :: a

/-- Decode the unary length marker. -/
def decodeLen : List Nat → Option (Nat × List Nat)
  | [] => none
  | 0 :: r => some (0, r)
  | 1 :: r =>
    match decodeLen r with
    | some (k, rest) => some (k + 1, rest)
    | none => none
  | _ => none

/-- Decode a self-delimiting list, returning the list and the remainder. -/
def decodeL (l : List Nat) : Option (List Nat × List Nat) :=
  match decodeLen l with
  | some (k, rest) =>
    if k ≤ rest.length then some (rest.take k, rest.drop k) else none
  | none => none

theorem decodeLen_replicate (n : Nat) (r : List Nat) :
    decodeLen (List.replicate n 1 ++ 0 :: r) = some (n, r) := by
  induction n with
  | zero => simp [decodeLen]
  | succ n ih => simp [List.replicate_succ, decodeLen, ih]

theorem decodeL_encodeL (a b : List Nat) :
    decodeL (encodeL a ++ b) = some (a, b) := by
  unfold decodeL encodeL
  rw [List.append_assoc, List.cons_append, decodeLen_replicate]
  simp only []
  rw [if_pos (by simp)]
  rw [List.take_left, List.drop_left]

theorem encodeL_append_inj {a b a' b' : List Nat}
    (h : encodeL a ++ b = encodeL a' ++ b') : a = a' ∧ b = b' := by
  have h1 := decodeL_encodeL a b
  have h2 := decodeL_encodeL a' b'
  rw [h, h2] at h1
  simpa using h1.symm

/-! ## Idealized external primitives

The argon2, aes-gcm and zstd crates are external dependencies, not code
of this repository.  They are modelled as executable idealized
primitives with exactly the contracts the repository's code relies on.
Key, tag and frame widths are abstracted; the self-delimiting `encodeL`
makes the constructions injective so that the ideal functional
properties (determinism, AEAD round-trip, fail-closed rejection of a
wrong key, lossless compression) hold exactly rather than with
overwhelming probability. -/

/-- Idealized model of `derive_key` (src/crypto/key_derivation.rs):
a deterministic function of `(password, salt)`, injective in the pair,
standing in for Argon2id with the fixed cost parameters.  Parameter
validation cannot fail on the fixed parameters, so the model is total. -/
def derive_key (password salt : List Nat) : List Nat :=
  encodeL password ++ encodeL salt

theorem derive_key_inj {p s p' s' : List Nat}
    (h : derive_key p s = derive_key p' s') : p = p' ∧ s = s' := by
  unfold derive_key at h
  obtain ⟨h1, h2⟩ := encodeL_append_inj h
  refine ⟨h1, ?_⟩
  have h3 := @encodeL_append_inj s [] s' [] (by simpa using h2)
  exact h3.1

/-- Idealized AEAD encryption (the `Aes256Gcm::encrypt` call): the
ciphertext determines key, nonce and plaintext, so that authenticated
decryption can check the key and nonce and recover the plaintext. -/
def aeadEncrypt (key nonce plaintext : List Nat) : List Nat :=
  encodeL key ++ encodeL nonce ++ plaintext

/-- Idealized AEAD decryption (the `Aes256Gcm::decrypt` call): recovers
the plaintext exactly when both key and nonce match the ones used at
encryption time, and fails (tag verification failure) otherwise. -/
def aeadDecrypt (key nonce ciphertext : List Nat) : Option (List Nat) :=
  match decodeL ciphertext with
  | none => none
  | some (k, rest) =>
    match decodeL rest with
    | none => none
    | some (n, plaintext) =>
      if k = key then if n = nonce then some plaintext else none else none

theorem aeadDecrypt_encrypt (key nonce pt : List Nat) :
    aeadDecrypt key nonce (aeadEncrypt key nonce pt) = some pt := by
  unfold aeadDecrypt aeadEncrypt
  simp [decodeL_encodeL]

theorem aeadDecrypt_wrong_key {key key' : List Nat} (nonce pt : List Nat)
    (h : key' ≠ key) :
    aeadDecrypt key' nonce (aeadEncrypt key nonce pt) = none := by
  unfold aeadDecrypt aeadEncrypt
  simp [decodeL_encodeL]
  exact fun hk => h hk.symm

/-- Idealized model of `compression::compress` (src/compression/mod.rs):
an injective lossless encoding standing in for zstd.  The compression
level only affects the encoded size in zstd, so it is dropped. -/
def compress (data : List Nat) : List Nat := encodeL data

/-- Idealized model of `compression::decompress`: inverts `compress`,
fails on data that is not a valid compressed frame (in particular on
empty input, which zstd rejects), and enforces the caller-supplied
ceiling on the decompressed size. -/
def decompress (data : List Nat) (max_size : Nat) : Option (List Nat) :=
  match decodeL data with
  | some (d, []) => if d.length ≤ max_size then some d else none
  | _ => none

theorem decompress_compress (d : List Nat) (max_size : Nat) :
    decompress (compress d) max_size =
      if d.length ≤ max_size then some d else none := by
  unfold decompress compress
  have := decodeL_encodeL d []
  rw [List.append_nil] at this
  rw [this]

@[simp] theorem decompress_nil (max_size : Nat) :
    decompress [] max_size = none := by
  simp [decompress, decodeL, decodeLen]

/-! ## Error type (src/error.rs)

I/O and cipher-construction error messages carry dynamic formatted
text; the model keeps only the static part of each message. -/

inductive CrateError where
  | ioError : CrateError
  | Encryption (msg : String) : CrateError
  | Decryption (msg : String) : CrateError
  | InvalidFormat (msg : String) : CrateError
  | InvalidPassword : CrateError
  | KeyDerivation (msg : String) : CrateError
  | FileNotFound (msg : String) : CrateError
  | UnsupportedVersion (v : Nat) : CrateError
deriving DecidableEq, Repr

/-- Result of running a piece of Rust code: success, a returned
`CrateError`, or a panic (the out-of-bounds slice indexing reachable in
`FileMetadata::from_bytes`). -/
inductive RResult (α : Type) where
  | ok : α → RResult α
  | err : CrateError → RResult α
  | panic : RResult α
deriving DecidableEq, Repr

/-! ## File metadata (src/metadata.rs) -/

/-- File metadata to preserve.  The filename is modelled by its UTF-8
byte sequence (Rust guarantees a `String` holds valid UTF-8, on which
`from_utf8_lossy` is the identity). -/
structure FileMetadata where
  filename : List Nat
  original_size : Nat
  modified_time : Option Nat
  is_compressed : Bool
deriving DecidableEq, Repr

/-- Serialize metadata to bytes (`FileMetadata::to_bytes`).  The
filename length is written through a `as u16` cast, the two 8-byte
fields hold `u64` values. -/
def FileMetadata.to_bytes (m : FileMetadata) : List Nat :=
  toLE 2 m.filename.length ++ m.filename ++
    toLE 8 m.original_size ++ toLE 8 (m.modified_time.getD 0) ++
    [if m.is_compressed then 1 else 0]

/-- Deserialize metadata from bytes (`FileMetadata::from_bytes`).
After the filename-length bounds check the Rust code indexes
`bytes[offset..offset+8]`, `bytes[offset+8..offset+16]` and
`bytes[offset+16]` without further checks; when the buffer is shorter
the slice indexing panics, modelled by `.panic`. -/
def FileMetadata.from_bytes (bytes : List Nat) : RResult FileMetadata :=
  if bytes.length < 19 then .err (.InvalidFormat "Metadata too short")
  else
    let filename_len := fromLE (bytes.take 2)
    if 2 + filename_len > bytes.length then
      .err (.InvalidFormat "Invalid filename length")
    else
      let filename := (bytes.drop 2).take filename_len
      let offset := 2 + filename_len
      if bytes.length < offset + 17 then .panic
      else
        let original_size := fromLE ((bytes.drop offset).take 8)
        let time_val := fromLE ((bytes.drop (offset + 8)).take 8)
        let modified_time := if time_val = 0 then none else some time_val
        let is_compressed := bytes.getD (offset + 16) 0 ≠ 0
        .ok ⟨filename, original_size, modified_time, is_compressed⟩

theorem getD_append_cons (P : List Nat) (c : Nat) (rest : List Nat) :
    (P ++ c :: rest).getD P.length 0 = c := by
  induction P with
  | nil => rfl
  | cons a P ih => simpa using ih

/-- Decoding a well-shaped metadata buffer: a 2-byte length prefix
matching the filename, two abstract 8-byte fields and a 1-byte flag. -/
theorem from_bytes_parts (fn S T : List Nat) (c : Nat)
    (hfn : fn.length ≤ 65535) (hS : S.length = 8) (hT : T.length = 8) :
    FileMetadata.from_bytes (toLE 2 fn.length ++ (fn ++ (S ++ (T ++ [c])))) =
      .ok ⟨fn, fromLE S, if fromLE T = 0 then none else some (fromLE T),
        decide (c ≠ 0)⟩ := by
  have hlen : (toLE 2 fn.length ++ (fn ++ (S ++ (T ++ [c])))).length
      = 19 + fn.length := by
    simp [hS, hT]; omega
  have h1 : (toLE 2 fn.length ++ (fn ++ (S ++ (T ++ [c])))).take 2
      = toLE 2 fn.length :=
    List.take_left' (by simp)
  have hfl : fromLE ((toLE 2 fn.length ++ (fn ++ (S ++ (T ++ [c])))).take 2)
      = fn.length := by
    rw [h1]
    refine fromLE_toLE_of_lt ?_
    have h2 : (256:Nat) ^ 2 = 65536 := by norm_num
    omega
  have h2 : ((toLE 2 fn.length ++ (fn ++ (S ++ (T ++ [c])))).drop 2).take fn.length
      = fn := by
    rw [List.drop_left' (by simp)]
    exact List.take_left' rfl
  have h4 : ((toLE 2 fn.length ++ (fn ++ (S ++ (T ++ [c])))).drop
      (2 + fn.length)).take 8 = S := by
    rw [show toLE 2 fn.length ++ (fn ++ (S ++ (T ++ [c]))) =
      (toLE 2 fn.length ++ fn) ++ (S ++ (T ++ [c])) by simp]
    rw [List.drop_left' (by simp)]
    exact List.take_left' hS
  have h6 : ((toLE 2 fn.length ++ (fn ++ (S ++ (T ++ [c])))).drop
      (2 + fn.length + 8)).take 8 = T := by
    rw [show toLE 2 fn.length ++ (fn ++ (S ++ (T ++ [c]))) =
      ((toLE 2 fn.length ++ fn) ++ S) ++ (T ++ [c]) by simp]
    rw [List.drop_left' (by simp [hS]; omega)]
    exact List.take_left' hT
  have h8 : (toLE 2 fn.length ++ (fn ++ (S ++ (T ++ [c])))).getD
      (2 + fn.length + 16) 0 = c := by
    rw [show toLE 2 fn.length ++ (fn ++ (S ++ (T ++ [c]))) =
      ((toLE 2 fn.length ++ fn) ++ (S ++ T)) ++ (c :: []) by simp]
    rw [show 2 + fn.length + 16 =
      ((toLE 2 fn.length ++ fn) ++ (S ++ T)).length by simp [hS, hT]; omega]
    exact getD_append_cons _ _ _
  simp only [FileMetadata.from_bytes, hlen, hfl, h2, h4, h6, h8]
  rw [if_neg (by omega), if_neg (by omega), if_neg (by omega)]

/-- Decoding an encoded metadata value: the filename and sizes are
recovered exactly (the `u64` fields modulo `2^64`), while a stored
modification time of `0` decodes to `none`. -/
theorem from_bytes_to_bytes (fn : List Nat) (sz : Nat) (mt : Option Nat) (cf : Bool)
    (hfn : fn.length ≤ 65535) :
    FileMetadata.from_bytes (FileMetadata.to_bytes ⟨fn, sz, mt, cf⟩) =
      .ok ⟨fn, sz % 2 ^ 64,
        if mt.getD 0 % 2 ^ 64 = 0 then none else some (mt.getD 0 % 2 ^ 64),
        cf⟩ := by
  have e1 : FileMetadata.to_bytes ⟨fn, sz, mt, cf⟩ =
      toLE 2 fn.length ++ (fn ++ (toLE 8 sz ++ (toLE 8 (mt.getD 0) ++
        [if cf then 1 else 0]))) := by
    simp [FileMetadata.to_bytes]
  rw [e1, from_bytes_parts fn _ _ _ hfn (length_toLE _ _) (length_toLE _ _),
    fromLE_toLE, fromLE_toLE]
  have h64 : (256:Nat) ^ 8 = 2 ^ 64 := by norm_num
  rw [h64]
  cases cf <;> simp

/-! ## Encryption engine (src/crypto/encryption.rs, src/streaming.rs)

The filesystem inputs of `encrypt_file` are passed as explicit values:
the full contents of the source file (`read_to_end`), the filename and
modification time that `FileMetadata::from_file` reads from the path,
and the fresh random salt and nonce drawn from `thread_rng`.  The
function's effect is the byte content written to the output path. -/

/-- `encrypt_file` (src/crypto/encryption.rs).  Compresses exactly when
the flag is set and the plaintext is non-empty, but records the raw
`compress` flag in the metadata, as the source does. -/
def encrypt_file (plaintext password : List Nat) (compress_flag : Bool)
    (filename : List Nat) (modified_time : Option Nat)
    (salt nonce : List Nat) : List Nat :=
  let data_to_encrypt :=
    if compress_flag ∧ plaintext ≠ [] then compress plaintext else plaintext
  let key := derive_key password salt
  let ciphertext := aeadEncrypt key nonce data_to_encrypt
  let metadata : FileMetadata :=
    ⟨filename, plaintext.length, modified_time, compress_flag⟩
  let metadata_bytes := metadata.to_bytes
  MAGIC_BYTES ++ [VERSION] ++ [ALGORITHM_AES256_GCM] ++ salt ++ nonce ++
    toLE 4 metadata_bytes.length ++ metadata_bytes ++ ciphertext

/-- One chunked-read loop iteration sequence of `encrypt_file_streaming`
(src/streaming.rs): reads up to `CHUNK_SIZE` bytes at a time and
concatenates them. -/
def read_chunks (input : List Nat) : List Nat :=
  if input = [] then []
  else input.take (1024 * 1024) ++ read_chunks (input.drop (1024 * 1024))
termination_by input.length
decreasing_by
  simp only [List.length_drop]
  have : input.length ≠ 0 := by
    simpa [List.length_eq_zero] using (by assumption : ¬ input = [])
  omega

theorem read_chunks_eq (input : List Nat) : read_chunks input = input := by
  generalize hn : input.length = n
  induction n using Nat.strong_induction_on generalizing input with
  | _ n ih =>
    rw [read_chunks]
    by_cases h : input = []
    · simp [h]
    · rw [if_neg h]
      rw [ih ((input.drop (1024 * 1024)).length) (by
        simp only [List.length_drop]
        have : input.length ≠ 0 := by simpa [List.length_eq_zero] using h
        omega) _ rfl]
      exact List.take_append_drop _ _

/-- `encrypt_file_streaming` (src/streaming.rs): same framing, no
compression, metadata flag fixed to `false`; the input is concatenated
from chunked reads before the single AEAD call. -/
def encrypt_file_streaming (plaintext password : List Nat)
    (filename : List Nat) (modified_time : Option Nat)
    (salt nonce : List Nat) : List Nat :=
  let key := derive_key password salt
  let metadata : FileMetadata :=
    ⟨filename, plaintext.length, modified_time, false⟩
  let metadata_bytes := metadata.to_bytes
  let all_data := read_chunks plaintext
  let ciphertext := aeadEncrypt key nonce all_data
  MAGIC_BYTES ++ [VERSION] ++ [ALGORITHM_AES256_GCM] ++ salt ++ nonce ++
    toLE 4 metadata_bytes.length ++ metadata_bytes ++ ciphertext

/-- Observable actions of a decryption run, in program order: the two
cryptographic operations and the opening/writing of the output file. -/
inductive DecEvent where
  | deriveKeyEv : DecEvent
  | aeadDecryptEv : DecEvent
  | openOutputTruncate : DecEvent
  | writeOutput (data : List Nat) : DecEvent
deriving DecidableEq, Repr

/-- Header parsing shared verbatim by `decrypt_file` and
`decrypt_file_streaming` (the two functions contain identical code up
to the AEAD call): checks magic, version and algorithm id in order,
then reads salt, nonce, the metadata block and the ciphertext. -/
def parse_header (input : List Nat) :
    Except CrateError (List Nat × List Nat × List Nat × List Nat) :=
  match read_exact 4 input with
  | none => .error .ioError
  | some (magic, r1) =>
    if magic ≠ MAGIC_BYTES then
      .error (.InvalidFormat "Not a valid CryptoCrate file")
    else
      match read_exact 1 r1 with
      | none => .error .ioError
      | some (version, r2) =>
        if version.getD 0 0 ≠ VERSION then
          .error (.UnsupportedVersion (version.getD 0 0))
        else
          match read_exact 1 r2 with
          | none => .error .ioError
          | some (algorithm, r3) =>
            if algorithm.getD 0 0 ≠ ALGORITHM_AES256_GCM then
              .error (.InvalidFormat "Unsupported encryption algorithm")
            else
              match read_exact SALT_LENGTH r3 with
              | none => .error .ioError
              | some (salt, r4) =>
                match read_exact NONCE_LENGTH r4 with
                | none => .error .ioError
                | some (nonce, r5) =>
                  match read_exact 4 r5 with
                  | none => .error .ioError
                  | some (metadata_len_bytes, r6) =>
                    match read_exact (fromLE metadata_len_bytes) r6 with
                    | none => .error .ioError
                    | some (metadata_bytes, ciphertext) =>
                      .ok (salt, nonce, metadata_bytes, ciphertext)

/-- Tail of `decrypt_file` after the container is parsed: derive the
key, AEAD-decrypt (failure is `InvalidPassword`), decompress when the
metadata says so, and only then open and write the output file. -/
def decrypt_tail (password salt nonce : List Nat) (metadata : FileMetadata)
    (ciphertext : List Nat) : RResult FileMetadata × List DecEvent :=
  let key := derive_key password salt
  match aeadDecrypt key nonce ciphertext with
  | none => (.err .InvalidPassword, [.deriveKeyEv, .aeadDecryptEv])
  | some decrypted_data =>
    if metadata.is_compressed then
      match decompress decrypted_data MAX_DECOMPRESSED_SIZE with
      | none => (.err (.Decryption "Decompression failed"),
          [.deriveKeyEv, .aeadDecryptEv])
      | some plaintext => (.ok metadata,
          [.deriveKeyEv, .aeadDecryptEv, .openOutputTruncate,
            .writeOutput plaintext])
    else
      (.ok metadata,
        [.deriveKeyEv, .aeadDecryptEv, .openOutputTruncate,
          .writeOutput decrypted_data])

/-- `decrypt_file` (src/crypto/encryption.rs): returns the recovered
metadata together with the trace of cryptographic and output-file
actions it performed. -/
def decrypt_file (input password : List Nat) :
    RResult FileMetadata × List DecEvent :=
  match parse_header input with
  | .error e => (.err e, [])
  | .ok (salt, nonce, metadata_bytes, ciphertext) =>
    match FileMetadata.from_bytes metadata_bytes with
    | .panic => (.panic, [])
    | .err e => (.err e, [])
    | .ok metadata => decrypt_tail password salt nonce metadata ciphertext

/-- Tail of `decrypt_file_streaming`: identical to `decrypt_tail`
except that the decrypted data is written as-is, without consulting the
`is_compressed` flag (the streaming path never decompresses). -/
def decrypt_streaming_tail (password salt nonce : List Nat)
    (metadata : FileMetadata) (ciphertext : List Nat) :
    RResult FileMetadata × List DecEvent :=
  let key := derive_key password salt
  match aeadDecrypt key nonce ciphertext with
  | none => (.err .InvalidPassword, [.deriveKeyEv, .aeadDecryptEv])
  | some plaintext =>
    (.ok metadata,
      [.deriveKeyEv, .aeadDecryptEv, .openOutputTruncate,
        .writeOutput plaintext])

/-- `decrypt_file_streaming` (src/streaming.rs). -/
def decrypt_file_streaming (input password : List Nat) :
    RResult FileMetadata × List DecEvent :=
  match parse_header input with
  | .error e => (.err e, [])
  | .ok (salt, nonce, metadata_bytes, ciphertext) =>
    match FileMetadata.from_bytes metadata_bytes with
    | .panic => (.panic, [])
    | .err e => (.err e, [])
    | .ok metadata =>
      decrypt_streaming_tail password salt nonce metadata ciphertext

/-- The data written to the destination path during a decryption run,
read off the event trace. -/
def writtenData : List DecEvent → Option (List Nat)
  | [] => none
  | .writeOutput d :: _ => some d
  | _ :: rest => writtenData rest

/-! ## Inspection (src/inspect.rs) -/

/-- Information about an encrypted file. -/
structure FileInfo where
  version : Nat
  algorithm : String
  metadata : FileMetadata
  encrypted_size : Nat
deriving DecidableEq, Repr

/-- `inspect_file` (src/inspect.rs): validates magic and version, maps
the algorithm id to a display name without rejecting unknown ids, skips
salt and nonce, and parses the metadata block.  The container's total
size is the length of the input. -/
def inspect_file (input : List Nat) : RResult FileInfo :=
  match read_exact 4 input with
  | none => .err .ioError
  | some (magic, r1) =>
    if magic ≠ MAGIC_BYTES then
      .err (.InvalidFormat "Not a valid CryptoCrate file")
    else
      match read_exact 1 r1 with
      | none => .err .ioError
      | some (version, r2) =>
        if version.getD 0 0 ≠ VERSION then
          .err (.UnsupportedVersion (version.getD 0 0))
        else
          match read_exact 1 r2 with
          | none => .err .ioError
          | some (algorithm, r3) =>
            let algorithm_name :=
              if algorithm.getD 0 0 = ALGORITHM_AES256_GCM then "AES-256-GCM"
              else "Unknown"
            match read_exact (SALT_LENGTH + NONCE_LENGTH) r3 with
            | none => .err .ioError
            | some (_, r4) =>
              match read_exact 4 r4 with
              | none => .err .ioError
              | some (metadata_len_bytes, r5) =>
                match read_exact (fromLE metadata_len_bytes) r5 with
                | none => .err .ioError
                | some (metadata_bytes, _) =>
                  match FileMetadata.from_bytes metadata_bytes with
                  | .panic => .panic
                  | .err e => .err e
                  | .ok metadata =>
                    .ok ⟨version.getD 0 0, algorithm_name, metadata,
                      input.length⟩

/-! ## Parsing a well-formed container -/

theorem parse_header_wf (v a : Nat) (salt nonce mb ct : List Nat)
    (hs : salt.length = SALT_LENGTH) (hn : nonce.length = NONCE_LENGTH)
    (hmb : mb.length < 2 ^ 32) :
    parse_header (MAGIC_BYTES ++ [v] ++ [a] ++ salt ++ nonce ++
        toLE 4 mb.length ++ mb ++ ct) =
      if v ≠ VERSION then .error (.UnsupportedVersion v)
      else if a ≠ ALGORITHM_AES256_GCM then
        .error (.InvalidFormat "Unsupported encryption algorithm")
      else .ok (salt, nonce, mb, ct) := by
  have hm : ∀ X, read_exact 4 (MAGIC_BYTES ++ X) = some (MAGIC_BYTES, X) :=
    fun X => read_exact_append_of_len _ _ rfl
  have h1 : ∀ (x : Nat) (X : List Nat), read_exact 1 (x :: X) = some ([x], X) := by
    intro x X
    unfold read_exact
    simp
  have hsalt : ∀ X, read_exact SALT_LENGTH (salt ++ X) = some (salt, X) :=
    fun X => read_exact_append_of_len _ _ hs
  have hnonce : ∀ X, read_exact NONCE_LENGTH (nonce ++ X) = some (nonce, X) :=
    fun X => read_exact_append_of_len _ _ hn
  have hml : ∀ X, read_exact 4 (toLE 4 mb.length ++ X)
      = some (toLE 4 mb.length, X) :=
    fun X => read_exact_append_of_len _ _ (length_toLE _ _)
  have hfle : fromLE (toLE 4 mb.length) = mb.length := by
    refine fromLE_toLE_of_lt ?_
    have : (256:Nat) ^ 4 = 2 ^ 32 := by norm_num
    omega
  simp only [List.append_assoc, List.singleton_append, List.cons_append]
  simp only [parse_header, hm, h1, hsalt, hnonce, hml, hfle,
    read_exact_append, List.getD_cons_zero, List.getElem?_cons_zero,
    Option.getD_some, ne_eq, ite_not]
  by_cases hv : v = VERSION
  · by_cases ha : a = ALGORITHM_AES256_GCM <;>
      simp [hv, ha, h1, hsalt, hnonce, hml, hfle, read_exact_append]
  · simp [hv]

theorem inspect_file_wf (v a : Nat) (salt nonce mb ct : List Nat)
    (hs : salt.length = SALT_LENGTH) (hn : nonce.length = NONCE_LENGTH)
    (hmb : mb.length < 2 ^ 32) :
    inspect_file (MAGIC_BYTES ++ [v] ++ [a] ++ salt ++ nonce ++
        toLE 4 mb.length ++ mb ++ ct) =
      if v ≠ VERSION then .err (.UnsupportedVersion v)
      else
        match FileMetadata.from_bytes mb with
        | .panic => .panic
        | .err e => .err e
        | .ok m =>
          .ok ⟨v, if a = ALGORITHM_AES256_GCM then "AES-256-GCM" else "Unknown",
            m, (MAGIC_BYTES ++ [v] ++ [a] ++ salt ++ nonce ++
              toLE 4 mb.length ++ mb ++ ct).length⟩ := by
  have hm : ∀ X, read_exact 4 (MAGIC_BYTES ++ X) = some (MAGIC_BYTES, X) :=
    fun X => read_exact_append_of_len _ _ rfl
  have h1 : ∀ (x : Nat) (X : List Nat), read_exact 1 (x :: X) = some ([x], X) := by
    intro x X
    unfold read_exact
    simp
  have hskip : ∀ X, read_exact (SALT_LENGTH + NONCE_LENGTH)
      (salt ++ (nonce ++ X)) = some (salt ++ nonce, X) := by
    intro X
    rw [← List.append_assoc]
    exact read_exact_append_of_len _ _ (by simp [hs, hn, SALT_LENGTH, NONCE_LENGTH])
  have hml : ∀ X, read_exact 4 (toLE 4 mb.length ++ X)
      = some (toLE 4 mb.length, X) :=
    fun X => read_exact_append_of_len _ _ (length_toLE _ _)
  have hfle : fromLE (toLE 4 mb.length) = mb.length := by
    refine fromLE_toLE_of_lt ?_
    have : (256:Nat) ^ 4 = 2 ^ 32 := by norm_num
    omega
  simp only [List.append_assoc, List.singleton_append, List.cons_append]
  simp only [inspect_file, hm, h1, hskip, hml, hfle,
    read_exact_append, List.getD_cons_zero, List.getElem?_cons_zero,
    Option.getD_some, ne_eq, ite_not]
  by_cases hv : v = VERSION
  · by_cases ha : a = ALGORITHM_AES256_GCM <;>
      cases hfb : FileMetadata.from_bytes mb <;>
        simp [hv, ha, hfb, h1, hskip, hml, hfle, read_exact_append]
  · simp [hv]

/-! ## Secure deletion (src/secure_delete.rs)

The file is modelled by its byte contents; `thread_rng` is modelled by
a stream `rng : Nat → Nat` of random bytes together with a counter of
how many have been drawn.  The observable behaviour is the trace of
seek / write / sync / unlink actions, in program order. -/

/-- Secure deletion modes. -/
inductive SecureDeleteMode where
  | Quick : SecureDeleteMode
  | Standard : SecureDeleteMode
  | Paranoid : SecureDeleteMode
deriving DecidableEq, Repr

def SecureDeleteMode.passes : SecureDeleteMode → Nat
  | .Quick => 1
  | .Standard => 3
  | .Paranoid => 7

/-- Overwrite patterns. -/
inductive OverwritePattern where
  | Random : OverwritePattern
  | Zeros : OverwritePattern
  | Ones : OverwritePattern
  | Pattern (byte : Nat) : OverwritePattern
deriving DecidableEq, Repr

/-- The pattern chosen for a given pass, the `match (mode, pass)` inside
the loop of `secure_delete`. -/
def patternForPass (mode : SecureDeleteMode) (pass : Nat) : OverwritePattern :=
  match mode with
  | .Quick => .Random
  | .Standard =>
    match pass with
    | 0 => .Random
    | 1 => .Zeros
    | _ => .Random
  | .Paranoid =>
    match pass with
    | 0 => .Random
    | 1 => .Ones
    | 2 => .Random
    | 3 => .Pattern 0xAA
    | 4 => .Pattern 0x55
    | 5 => .Random
    | _ => .Random

/-- File-system actions of a secure-deletion run. -/
inductive DelEvent where
  | seekStart : DelEvent
  | write (data : List Nat) : DelEvent
  | syncAll : DelEvent
  | removeFile : DelEvent
deriving DecidableEq, Repr

/-- 64 KB overwrite buffer. -/
def BUFFER_SIZE : Nat := 64 * 1024

/-- Contents of the overwrite buffer for one write of `n` bytes:
random bytes are drawn from the stream starting at index `ctr`. -/
def fillBuf (pat : OverwritePattern) (rng : Nat → Nat) (ctr n : Nat) : List Nat :=
  match pat with
  | .Random => (List.range n).map (fun i => rng (ctr + i) % 256)
  | .Zeros => List.replicate n 0
  | .Ones => List.replicate n 0xFF
  | .Pattern byte => List.replicate n byte

@[simp] theorem length_fillBuf (pat : OverwritePattern) (rng : Nat → Nat)
    (ctr n : Nat) : (fillBuf pat rng ctr n).length = n := by
  cases pat <;> simp [fillBuf]

/-- `overwrite_with_pattern` (src/secure_delete.rs): writes the pattern
across `remaining` bytes in chunks of at most `BUFFER_SIZE`, returning
the written chunks and the new random-stream counter. -/
def overwrite_with_pattern (remaining : Nat) (pat : OverwritePattern)
    (rng : Nat → Nat) (ctr : Nat) : List DelEvent × Nat :=
  if remaining = 0 then ([], ctr)
  else
    let write_size := min remaining BUFFER_SIZE
    let buf := fillBuf pat rng ctr write_size
    let ctr' := match pat with
      | .Random => ctr + write_size
      | _ => ctr
    let rest := overwrite_with_pattern (remaining - write_size) pat rng ctr'
    (.write buf :: rest.1, rest.2)
termination_by remaining
decreasing_by
  have hb : 0 < BUFFER_SIZE := by norm_num [BUFFER_SIZE]
  have hr : 0 < remaining := Nat.pos_of_ne_zero (by assumption)
  simp only [Nat.lt_iff_add_one_le]
  omega

/-- The number of bytes an event trace writes to the file. -/
def writeTotal : List DelEvent → Nat
  | [] => 0
  | .write d :: rest => d.length + writeTotal rest
  | _ :: rest => writeTotal rest

/-- Each pass writes exactly the file's length. -/
theorem overwrite_writeTotal (remaining : Nat) (pat : OverwritePattern)
    (rng : Nat → Nat) (ctr : Nat) :
    writeTotal (overwrite_with_pattern remaining pat rng ctr).1 = remaining := by
  induction remaining using Nat.strong_induction_on generalizing ctr with
  | _ remaining ih =>
    rw [overwrite_with_pattern]
    by_cases h : remaining = 0
    · simp [h, writeTotal]
    · have hb : 0 < BUFFER_SIZE := by norm_num [BUFFER_SIZE]
      have hr : 0 < remaining := Nat.pos_of_ne_zero h
      simp only [h, if_false, writeTotal, length_fillBuf]
      rw [ih (remaining - min remaining BUFFER_SIZE) (by omega)]
      omega

/-- The random-stream counter advances by the written size on random
passes and is untouched by constant-pattern passes. -/
theorem overwrite_ctr (remaining : Nat) (pat : OverwritePattern)
    (rng : Nat → Nat) (ctr : Nat) :
    (overwrite_with_pattern remaining pat rng ctr).2 =
      match pat with
      | .Random => ctr + remaining
      | _ => ctr := by
  induction remaining using Nat.strong_induction_on generalizing ctr with
  | _ remaining ih =>
    rw [overwrite_with_pattern]
    by_cases h : remaining = 0
    · simp [h]
      cases pat <;> simp
    · have hb : 0 < BUFFER_SIZE := by norm_num [BUFFER_SIZE]
      have hr : 0 < remaining := Nat.pos_of_ne_zero h
      simp only [h, if_false]
      rw [ih (remaining - min remaining BUFFER_SIZE) (by omega)]
      cases pat <;> first | (simp; omega) | simp

/-- Every chunk is a correctly-sized, correctly-filled buffer. -/
theorem overwrite_writes (remaining : Nat) (pat : OverwritePattern)
    (rng : Nat → Nat) (ctr : Nat) :
    ∀ e ∈ (overwrite_with_pattern remaining pat rng ctr).1,
      ∃ c n, e = .write (fillBuf pat rng c n) ∧ 0 < n ∧ n ≤ BUFFER_SIZE := by
  induction remaining using Nat.strong_induction_on generalizing ctr with
  | _ remaining ih =>
    rw [overwrite_with_pattern]
    by_cases h : remaining = 0
    · simp [h]
    · have hb : 0 < BUFFER_SIZE := by norm_num [BUFFER_SIZE]
      have hr : 0 < remaining := Nat.pos_of_ne_zero h
      simp only [h, if_false, List.mem_cons]
      rintro e (rfl | he)
      · exact ⟨ctr, min remaining BUFFER_SIZE, rfl, by omega, by omega⟩
      · exact ih (remaining - min remaining BUFFER_SIZE) (by omega) _ e he

/-- The pass loop of `secure_delete`: for each pass index, seek to the
start, overwrite, and sync, threading the random-stream counter. -/
def runPasses (mode : SecureDeleteMode) (size : Nat) (rng : Nat → Nat) :
    List Nat → Nat → List DelEvent × Nat
  | [], ctr => ([], ctr)
  | p :: ps, ctr =>
    let o := overwrite_with_pattern size (patternForPass mode p) rng ctr
    let rest := runPasses mode size rng ps o.2
    (.seekStart :: o.1 ++ .syncAll :: rest.1, rest.2)

/-- `secure_delete` (src/secure_delete.rs): a zero-length file is
unlinked directly; otherwise all passes run and then the path is
unlinked. -/
def secure_delete (content : List Nat) (mode : SecureDeleteMode)
    (rng : Nat → Nat) : List DelEvent :=
  if content.length = 0 then [.removeFile]
  else
    (runPasses mode content.length rng (List.range mode.passes) 0).1 ++
      [.removeFile]

/-! ## Helper lemmas about the pipeline -/

@[simp] theorem length_to_bytes (m : FileMetadata) :
    m.to_bytes.length = 19 + m.filename.length := by
  simp [FileMetadata.to_bytes]
  omega

theorem read_exact_cons_one (x : Nat) (X : List Nat) :
    read_exact 1 (x :: X) = some ([x], X) := by
  unfold read_exact
  simp

theorem decrypt_file_frame (W salt nonce mb ct : List Nat)
    (hs : salt.length = SALT_LENGTH) (hn : nonce.length = NONCE_LENGTH)
    (hmb : mb.length < 2 ^ 32) :
    decrypt_file (MAGIC_BYTES ++ [VERSION] ++ [ALGORITHM_AES256_GCM] ++ salt ++
        nonce ++ toLE 4 mb.length ++ mb ++ ct) W =
      match FileMetadata.from_bytes mb with
      | .panic => (.panic, [])
      | .err e => (.err e, [])
      | .ok metadata => decrypt_tail W salt nonce metadata ct := by
  unfold decrypt_file
  rw [parse_header_wf _ _ _ _ _ _ hs hn hmb]
  simp

theorem decrypt_streaming_frame (W salt nonce mb ct : List Nat)
    (hs : salt.length = SALT_LENGTH) (hn : nonce.length = NONCE_LENGTH)
    (hmb : mb.length < 2 ^ 32) :
    decrypt_file_streaming (MAGIC_BYTES ++ [VERSION] ++ [ALGORITHM_AES256_GCM] ++
        salt ++ nonce ++ toLE 4 mb.length ++ mb ++ ct) W =
      match FileMetadata.from_bytes mb with
      | .panic => (.panic, [])
      | .err e => (.err e, [])
      | .ok metadata => decrypt_streaming_tail W salt nonce metadata ct := by
  unfold decrypt_file_streaming
  rw [parse_header_wf _ _ _ _ _ _ hs hn hmb]
  simp

theorem encrypt_file_eq (P W : List Nat) (b : Bool) (fn : List Nat)
    (mt : Option Nat) (salt nonce : List Nat) :
    encrypt_file P W b fn mt salt nonce =
      MAGIC_BYTES ++ [VERSION] ++ [ALGORITHM_AES256_GCM] ++ salt ++ nonce ++
        toLE 4 (FileMetadata.to_bytes ⟨fn, P.length, mt, b⟩).length ++
        FileMetadata.to_bytes ⟨fn, P.length, mt, b⟩ ++
        aeadEncrypt (derive_key W salt) nonce
          (if b ∧ P ≠ [] then compress P else P) := rfl

theorem encrypt_streaming_eq (P W : List Nat) (fn : List Nat)
    (mt : Option Nat) (salt nonce : List Nat) :
    encrypt_file_streaming P W fn mt salt nonce =
      MAGIC_BYTES ++ [VERSION] ++ [ALGORITHM_AES256_GCM] ++ salt ++ nonce ++
        toLE 4 (FileMetadata.to_bytes ⟨fn, P.length, mt, false⟩).length ++
        FileMetadata.to_bytes ⟨fn, P.length, mt, false⟩ ++
        aeadEncrypt (derive_key W salt) nonce P := by
  unfold encrypt_file_streaming
  rw [read_chunks_eq]

/-! ## Claims -/

/-- C3 counterexample: the claim includes `modified_time = Some(0)`,
but a stored time of `0` decodes to `None`, so that metadata value does
not survive the round-trip. -/
theorem C3_metadata_roundtrip_counterexample :
    FileMetadata.from_bytes
        (FileMetadata.to_bytes ⟨[], 0, some 0, false⟩) ≠
      RResult.ok ⟨[], 0, some 0, false⟩ := by decide

/-- C3 (amended): for every `FileMetadata` whose filename is at most
65535 UTF-8 bytes, whose `original_size` fits a `u64`, and whose
`modified_time` is either absent or a nonzero `u64`, decoding the
encoding recovers an equal value.  The excluded case
`modified_time = Some(0)` decodes to `None`. -/
theorem C3_metadata_roundtrip (m : FileMetadata)
    (hfn : m.filename.length ≤ 65535)
    (hsz : m.original_size < 2 ^ 64)
    (hmt : ∀ t, m.modified_time = some t → 0 < t ∧ t < 2 ^ 64) :
    FileMetadata.from_bytes m.to_bytes = RResult.ok m := by
  obtain ⟨fn, sz, mt, cf⟩ := m
  rw [from_bytes_to_bytes fn sz mt cf hfn]
  cases mt with
  | none => simp_all [Nat.mod_eq_of_lt hsz]
  | some t =>
    obtain ⟨ht0, ht64⟩ := hmt t rfl
    simp only [Option.getD_some]
    rw [Nat.mod_eq_of_lt (by simpa using hsz), Nat.mod_eq_of_lt ht64,
      if_neg (by omega)]

/-- C3 witness: a concrete metadata value round-trips. -/
theorem C3_metadata_roundtrip_witness :
    FileMetadata.from_bytes
        (FileMetadata.to_bytes ⟨[97], 5, some 1234, true⟩) =
      RResult.ok ⟨[97], 5, some 1234, true⟩ :=
  C3_metadata_roundtrip ⟨[97], 5, some 1234, true⟩ (by decide)
    (by norm_num)
    (by intro t ht; cases ht; exact ⟨by norm_num, by norm_num⟩)

/-- C5: an input of at least 4 bytes whose first 4 bytes are not the
magic constant is rejected by both `decrypt_file` and `inspect_file`
with the InvalidFormat error, with an empty action trace, so before any
key derivation or AEAD operation. -/
theorem C5_magic_rejection (input password : List Nat)
    (hlen : 4 ≤ input.length) (hmagic : input.take 4 ≠ MAGIC_BYTES) :
    decrypt_file input password =
      (.err (.InvalidFormat "Not a valid CryptoCrate file"), []) ∧
    inspect_file input =
      .err (.InvalidFormat "Not a valid CryptoCrate file") := by
  have hre : read_exact 4 input = some (input.take 4, input.drop 4) := by
    unfold read_exact
    rw [if_pos hlen]
  constructor
  · unfold decrypt_file parse_header
    rw [hre]
    simp [hmagic]
  · unfold inspect_file
    rw [hre]
    simp [hmagic]

/-- C5 witness. -/
theorem C5_magic_rejection_witness :
    decrypt_file [0, 0, 0, 0] [] =
      (.err (.InvalidFormat "Not a valid CryptoCrate file"), []) ∧
    inspect_file [0, 0, 0, 0] =
      .err (.InvalidFormat "Not a valid CryptoCrate file") :=
  C5_magic_rejection [0, 0, 0, 0] [] (by decide) (by decide)

/-- C6: a file with correct magic whose version byte differs from the
supported version is rejected by `decrypt_file` and `inspect_file` with
`UnsupportedVersion` carrying that byte, with an empty action trace, so
no later field is decoded and no cryptographic work is done. -/
theorem C6_version_gate (input password : List Nat)
    (hmagic : input.take 4 = MAGIC_BYTES) (hlen : 5 ≤ input.length)
    (hv : input.getD 4 0 ≠ VERSION) :
    decrypt_file input password =
      (.err (.UnsupportedVersion (input.getD 4 0)), []) ∧
    inspect_file input = .err (.UnsupportedVersion (input.getD 4 0)) := by
  have hre : read_exact 4 input = some (input.take 4, input.drop 4) := by
    unfold read_exact
    rw [if_pos (by omega)]
  have hdrop : input.drop 4 = input.getD 4 0 :: input.drop 5 := by
    rw [List.getD_eq_getElem?_getD]
    rw [List.drop_eq_getElem_cons (by omega)]
    simp [List.getElem?_eq_getElem (by omega : 4 < input.length)]
  have hre1 : read_exact 1 (input.drop 4) =
      some ([input.getD 4 0], input.drop 5) := by
    rw [hdrop]
    exact read_exact_cons_one _ _
  have hv' : input[4]?.getD 0 ≠ VERSION := by
    rw [← List.getD_eq_getElem?_getD]
    exact hv
  constructor
  · unfold decrypt_file parse_header
    rw [hre]
    simp only [hmagic, ite_not, if_pos rfl, hre1]
    simp [hv']
  · unfold inspect_file
    rw [hre]
    simp only [hmagic, ite_not, if_pos rfl, hre1]
    simp [hv']

/-- C6 witness: a container with version byte 2. -/
theorem C6_version_gate_witness :
    decrypt_file [0x43, 0x52, 0x41, 0x54, 2] [] =
      (.err (.UnsupportedVersion 2), []) ∧
    inspect_file [0x43, 0x52, 0x41, 0x54, 2] =
      .err (.UnsupportedVersion 2) :=
  C6_version_gate [0x43, 0x52, 0x41, 0x54, 2] [] (by decide) (by decide)
    (by decide)

/-- C1 (amended): encrypt-then-decrypt writes back exactly the original
plaintext for non-empty plaintext and non-empty password, on the
buffered path with and without compression and on the streaming path —
provided that, with compression enabled, the plaintext does not exceed
the 1 GiB decompression ceiling that `decrypt_file` enforces. -/
theorem C1_roundtrip (P W fn : List Nat) (mt : Option Nat)
    (salt nonce : List Nat)
    (hP : P ≠ []) (hW : W ≠ [])
    (hs : salt.length = SALT_LENGTH) (hn : nonce.length = NONCE_LENGTH)
    (hfn : fn.length ≤ 65535) :
    (P.length ≤ MAX_DECOMPRESSED_SIZE →
      writtenData (decrypt_file (encrypt_file P W true fn mt salt nonce) W).2
        = some P) ∧
    writtenData (decrypt_file (encrypt_file P W false fn mt salt nonce) W).2
      = some P ∧
    writtenData (decrypt_file_streaming
        (encrypt_file_streaming P W fn mt salt nonce) W).2 = some P := by
  have h32 : (2:Nat) ^ 32 = 4294967296 := by norm_num
  refine ⟨?_, ?_, ?_⟩
  · intro hsize
    have hmb : (FileMetadata.to_bytes ⟨fn, P.length, mt, true⟩).length
        < 2 ^ 32 := by
      rw [length_to_bytes]
      show 19 + fn.length < 2 ^ 32
      omega
    rw [encrypt_file_eq, decrypt_file_frame W salt nonce _ _ hs hn hmb]
    simp only [from_bytes_to_bytes fn P.length mt true hfn]
    unfold decrypt_tail
    simp [hP, aeadDecrypt_encrypt, decompress_compress, hsize, writtenData]
  · have hmb : (FileMetadata.to_bytes ⟨fn, P.length, mt, false⟩).length
        < 2 ^ 32 := by
      rw [length_to_bytes]
      show 19 + fn.length < 2 ^ 32
      omega
    rw [encrypt_file_eq, decrypt_file_frame W salt nonce _ _ hs hn hmb]
    simp only [from_bytes_to_bytes fn P.length mt false hfn]
    unfold decrypt_tail
    simp [aeadDecrypt_encrypt, writtenData]
  · have hmb : (FileMetadata.to_bytes ⟨fn, P.length, mt, false⟩).length
        < 2 ^ 32 := by
      rw [length_to_bytes]
      show 19 + fn.length < 2 ^ 32
      omega
    rw [encrypt_streaming_eq, decrypt_streaming_frame W salt nonce _ _ hs hn hmb]
    simp only [from_bytes_to_bytes fn P.length mt false hfn]
    unfold decrypt_streaming_tail
    simp [aeadDecrypt_encrypt, writtenData]

/-- Decrypting the encryption of an all-zero plaintext larger than the
decompression ceiling fails with a decompression error and writes
nothing.  Stated for an abstract size `N` so that the concrete
counterexample below never evaluates the gigabyte-sized list. -/
theorem decrypt_encrypt_oversize (N : Nat) (hN : MAX_DECOMPRESSED_SIZE < N) :
    decrypt_file (encrypt_file (List.replicate N 0) [1] true []
        none (List.replicate 32 0) (List.replicate 12 0)) [1] =
      (.err (.Decryption "Decompression failed"),
        [.deriveKeyEv, .aeadDecryptEv]) ∧
    writtenData (decrypt_file (encrypt_file (List.replicate N 0)
        [1] true [] none (List.replicate 32 0) (List.replicate 12 0)) [1]).2
      = none := by
  have hs : (List.replicate 32 0 : List Nat).length = SALT_LENGTH := by
    simp [SALT_LENGTH]
  have hn : (List.replicate 12 0 : List Nat).length = NONCE_LENGTH := by
    simp [NONCE_LENGTH]
  have hN0 : N ≠ 0 := by
    intro h
    rw [h] at hN
    simp [MAX_DECOMPRESSED_SIZE] at hN
  have hP : (List.replicate N 0 : List Nat) ≠ [] := by
    simp [hN0]
  have hmb : (FileMetadata.to_bytes
      ⟨[], (List.replicate N 0 : List Nat).length, none, true⟩).length
      < 2 ^ 32 := by
    rw [length_to_bytes]
    show 19 + List.length [] < 2 ^ 32
    norm_num
  have hred : decrypt_file (encrypt_file (List.replicate N 0) [1]
      true [] none (List.replicate 32 0) (List.replicate 12 0)) [1] =
      (.err (.Decryption "Decompression failed"),
        [.deriveKeyEv, .aeadDecryptEv]) := by
    rw [encrypt_file_eq,
      decrypt_file_frame [1] (List.replicate 32 0) (List.replicate 12 0) _ _
        hs hn hmb]
    simp only [from_bytes_to_bytes [] _ none true (by simp)]
    unfold decrypt_tail
    have hgt : ¬ N ≤ MAX_DECOMPRESSED_SIZE := by omega
    simp [hP, aeadDecrypt_encrypt, decompress_compress, hgt]
  exact ⟨hred, by rw [hred]; simp [writtenData]⟩

/-- C1 counterexample: with compression enabled and a plaintext one
byte over the 1 GiB decompression ceiling, decryption of the freshly
encrypted container fails with a decompression error and writes
nothing, so the round-trip claimed for all non-empty plaintexts fails
here. -/
theorem C1_roundtrip_counterexample :
    decrypt_file (encrypt_file (List.replicate (2 ^ 30 + 1) 0) [1] true []
        none (List.replicate 32 0) (List.replicate 12 0)) [1] =
      (.err (.Decryption "Decompression failed"),
        [.deriveKeyEv, .aeadDecryptEv]) ∧
    writtenData (decrypt_file (encrypt_file (List.replicate (2 ^ 30 + 1) 0)
        [1] true [] none (List.replicate 32 0) (List.replicate 12 0)) [1]).2
      = none :=
  decrypt_encrypt_oversize (2 ^ 30 + 1)
    (by norm_num [MAX_DECOMPRESSED_SIZE])

/-- C1 witness: a concrete one-byte plaintext round-trips on all three
paths. -/
theorem C1_roundtrip_witness :
    ((7 :: List.nil).length ≤ MAX_DECOMPRESSED_SIZE →
      writtenData (decrypt_file (encrypt_file [7] [1] true [] none
        (List.replicate 32 0) (List.replicate 12 0)) [1]).2 = some [7]) ∧
    writtenData (decrypt_file (encrypt_file [7] [1] false [] none
        (List.replicate 32 0) (List.replicate 12 0)) [1]).2 = some [7] ∧
    writtenData (decrypt_file_streaming (encrypt_file_streaming [7] [1] []
        none (List.replicate 32 0) (List.replicate 12 0)) [1]).2 = some [7] :=
  C1_roundtrip [7] [1] [] none (List.replicate 32 0) (List.replicate 12 0)
    (by decide) (by decide) (by simp [SALT_LENGTH]) (by simp [NONCE_LENGTH])
    (by decide)

/-- C4: decrypting a container produced under secret `W` with any
different secret returns `InvalidPassword` and performs no output-file
action, on every combination of buffered/streaming encryptor and
decryptor. -/
theorem C4_wrong_password (P W W2 fn : List Nat) (mt : Option Nat) (b : Bool)
    (salt nonce : List Nat)
    (hne : W2 ≠ W)
    (hs : salt.length = SALT_LENGTH) (hn : nonce.length = NONCE_LENGTH)
    (hfn : fn.length ≤ 65535) :
    decrypt_file (encrypt_file P W b fn mt salt nonce) W2 =
      (.err .InvalidPassword, [.deriveKeyEv, .aeadDecryptEv]) ∧
    decrypt_file_streaming (encrypt_file P W b fn mt salt nonce) W2 =
      (.err .InvalidPassword, [.deriveKeyEv, .aeadDecryptEv]) ∧
    decrypt_file (encrypt_file_streaming P W fn mt salt nonce) W2 =
      (.err .InvalidPassword, [.deriveKeyEv, .aeadDecryptEv]) ∧
    decrypt_file_streaming (encrypt_file_streaming P W fn mt salt nonce) W2 =
      (.err .InvalidPassword, [.deriveKeyEv, .aeadDecryptEv]) := by
  have hkey : derive_key W2 salt ≠ derive_key W salt :=
    fun h => hne (derive_key_inj h).1
  have hmb : ∀ c : Bool, (FileMetadata.to_bytes ⟨fn, P.length, mt, c⟩).length
      < 2 ^ 32 := by
    intro c
    rw [length_to_bytes]
    show 19 + fn.length < 2 ^ 32
    have h32 : (2:Nat) ^ 32 = 4294967296 := by norm_num
    omega
  refine ⟨?_, ?_, ?_, ?_⟩
  · rw [encrypt_file_eq, decrypt_file_frame W2 salt nonce _ _ hs hn (hmb b)]
    simp only [from_bytes_to_bytes fn P.length mt b hfn]
    unfold decrypt_tail
    simp [aeadDecrypt_wrong_key _ _ hkey]
  · rw [encrypt_file_eq, decrypt_streaming_frame W2 salt nonce _ _ hs hn (hmb b)]
    simp only [from_bytes_to_bytes fn P.length mt b hfn]
    unfold decrypt_streaming_tail
    simp [aeadDecrypt_wrong_key _ _ hkey]
  · rw [encrypt_streaming_eq, decrypt_file_frame W2 salt nonce _ _ hs hn (hmb false)]
    simp only [from_bytes_to_bytes fn P.length mt false hfn]
    unfold decrypt_tail
    simp [aeadDecrypt_wrong_key _ _ hkey]
  · rw [encrypt_streaming_eq,
      decrypt_streaming_frame W2 salt nonce _ _ hs hn (hmb false)]
    simp only [from_bytes_to_bytes fn P.length mt false hfn]
    unfold decrypt_streaming_tail
    simp [aeadDecrypt_wrong_key _ _ hkey]

/-- C4 witness. -/
theorem C4_wrong_password_witness :
    decrypt_file (encrypt_file [7] [1] false [] none (List.replicate 32 0)
        (List.replicate 12 0)) [2] =
      (.err .InvalidPassword, [.deriveKeyEv, .aeadDecryptEv]) ∧
    decrypt_file_streaming (encrypt_file [7] [1] false [] none
        (List.replicate 32 0) (List.replicate 12 0)) [2] =
      (.err .InvalidPassword, [.deriveKeyEv, .aeadDecryptEv]) ∧
    decrypt_file (encrypt_file_streaming [7] [1] [] none
        (List.replicate 32 0) (List.replicate 12 0)) [2] =
      (.err .InvalidPassword, [.deriveKeyEv, .aeadDecryptEv]) ∧
    decrypt_file_streaming (encrypt_file_streaming [7] [1] [] none
        (List.replicate 32 0) (List.replicate 12 0)) [2] =
      (.err .InvalidPassword, [.deriveKeyEv, .aeadDecryptEv]) :=
  C4_wrong_password [7] [1] [2] [] none false (List.replicate 32 0)
    (List.replicate 12 0) (by decide) (by simp [SALT_LENGTH])
    (by simp [NONCE_LENGTH]) (by decide)

/-- C10: a container with valid magic and version but an algorithm id
other than 1 is accepted by `inspect_file`, which reports the display
name "Unknown", while `decrypt_file` rejects the same container with an
InvalidFormat error before doing any cryptographic work. -/
theorem C10_algorithm_disagreement (salt nonce mb ct password : List Nat)
    (alg : Nat) (m : FileMetadata)
    (hs : salt.length = SALT_LENGTH) (hn : nonce.length = NONCE_LENGTH)
    (hmb : mb.length < 2 ^ 32) (halg : alg ≠ ALGORITHM_AES256_GCM)
    (hm : FileMetadata.from_bytes mb = .ok m) :
    inspect_file (MAGIC_BYTES ++ [VERSION] ++ [alg] ++ salt ++ nonce ++
        toLE 4 mb.length ++ mb ++ ct) =
      .ok ⟨VERSION, "Unknown", m, (MAGIC_BYTES ++ [VERSION] ++ [alg] ++ salt ++
        nonce ++ toLE 4 mb.length ++ mb ++ ct).length⟩ ∧
    decrypt_file (MAGIC_BYTES ++ [VERSION] ++ [alg] ++ salt ++ nonce ++
        toLE 4 mb.length ++ mb ++ ct) password =
      (.err (.InvalidFormat "Unsupported encryption algorithm"), []) := by
  constructor
  · rw [inspect_file_wf _ _ _ _ _ _ hs hn hmb]
    simp [hm, halg]
  · unfold decrypt_file
    rw [parse_header_wf _ _ _ _ _ _ hs hn hmb]
    simp [halg]

/-- C10 witness: algorithm id 2. -/
theorem C10_algorithm_disagreement_witness :
    inspect_file (MAGIC_BYTES ++ [VERSION] ++ [2] ++ List.replicate 32 0 ++
        List.replicate 12 0 ++
        toLE 4 (FileMetadata.to_bytes ⟨[], 0, none, false⟩).length ++
        FileMetadata.to_bytes ⟨[], 0, none, false⟩ ++ []) =
      .ok ⟨VERSION, "Unknown", ⟨[], 0, none, false⟩,
        (MAGIC_BYTES ++ [VERSION] ++ [2] ++ List.replicate 32 0 ++
          List.replicate 12 0 ++
          toLE 4 (FileMetadata.to_bytes ⟨[], 0, none, false⟩).length ++
          FileMetadata.to_bytes ⟨[], 0, none, false⟩ ++ []).length⟩ ∧
    decrypt_file (MAGIC_BYTES ++ [VERSION] ++ [2] ++ List.replicate 32 0 ++
        List.replicate 12 0 ++
        toLE 4 (FileMetadata.to_bytes ⟨[], 0, none, false⟩).length ++
        FileMetadata.to_bytes ⟨[], 0, none, false⟩ ++ []) [1] =
      (.err (.InvalidFormat "Unsupported encryption algorithm"), []) :=
  C10_algorithm_disagreement (List.replicate 32 0) (List.replicate 12 0)
    (FileMetadata.to_bytes ⟨[], 0, none, false⟩) [] [1] 2 ⟨[], 0, none, false⟩
    (by simp [SALT_LENGTH]) (by simp [NONCE_LENGTH]) (by decide) (by decide)
    (by decide)

/-- C2: the claim says the `is_compressed` metadata field equals the
actual compression decision, in particular `false` for an empty input
with the compress flag set.  The code instead records the raw flag:
encrypting an empty file with compression requested yields a container
whose metadata says `is_compressed = true` although the (empty) payload
was not compressed, and decrypting that container fails with a
decompression error instead of round-tripping. -/
theorem C2_empty_compress_flag_bug :
    inspect_file (encrypt_file [] [1] true [97] none (List.replicate 32 0)
        (List.replicate 12 0)) =
      .ok ⟨VERSION, "AES-256-GCM", ⟨[97], 0, none, true⟩,
        (encrypt_file [] [1] true [97] none (List.replicate 32 0)
          (List.replicate 12 0)).length⟩ ∧
    decrypt_file (encrypt_file [] [1] true [97] none (List.replicate 32 0)
        (List.replicate 12 0)) [1] =
      (.err (.Decryption "Decompression failed"),
        [.deriveKeyEv, .aeadDecryptEv]) := by
  have hs : (List.replicate 32 0 : List Nat).length = SALT_LENGTH := by
    simp [SALT_LENGTH]
  have hn : (List.replicate 12 0 : List Nat).length = NONCE_LENGTH := by
    simp [NONCE_LENGTH]
  have hmb : (FileMetadata.to_bytes
      ⟨[97], ([] : List Nat).length, none, true⟩).length < 2 ^ 32 := by
    rw [length_to_bytes]
    show 19 + List.length [97] < 2 ^ 32
    norm_num
  constructor
  · rw [encrypt_file_eq, inspect_file_wf _ _ _ _ _ _ hs hn hmb]
    simp only [from_bytes_to_bytes [97] _ none true (by simp)]
    simp
  · rw [encrypt_file_eq,
      decrypt_file_frame [1] (List.replicate 32 0) (List.replicate 12 0) _ _
        hs hn hmb]
    simp only [from_bytes_to_bytes [97] _ none true (by simp)]
    unfold decrypt_tail
    simp [aeadDecrypt_encrypt]

/-- Every run of `decrypt_file` either succeeds with the full trace, or
fails having performed at most the two cryptographic operations and no
output-file action. -/
theorem decrypt_file_failure_events (input password : List Nat) :
    (∃ m d, decrypt_file input password =
        (.ok m, [.deriveKeyEv, .aeadDecryptEv, .openOutputTruncate,
          .writeOutput d])) ∨
    (decrypt_file input password).2 = [] ∨
    (decrypt_file input password).2 = [.deriveKeyEv, .aeadDecryptEv] := by
  cases hp : parse_header input with
  | error e =>
    right; left
    unfold decrypt_file
    simp [hp]
  | ok x =>
    obtain ⟨salt, nonce, mb, ct⟩ := x
    cases hfb : FileMetadata.from_bytes mb with
    | panic =>
      right; left
      unfold decrypt_file
      simp [hp, hfb]
    | err e =>
      right; left
      unfold decrypt_file
      simp [hp, hfb]
    | ok m =>
      have hd : decrypt_file input password =
          decrypt_tail password salt nonce m ct := by
        unfold decrypt_file
        simp [hp, hfb]
      rw [hd]
      unfold decrypt_tail
      cases had : aeadDecrypt (derive_key password salt) nonce ct with
      | none => right; right; simp [had]
      | some d =>
        by_cases hc : m.is_compressed
        · cases hdc : decompress d MAX_DECOMPRESSED_SIZE with
          | none => right; right; simp [had, hc, hdc]
          | some p => left; exact ⟨m, p, by simp [had, hc, hdc]⟩
        · left; exact ⟨m, d, by simp [had, hc]⟩

/-- C7: whenever `decrypt_file` fails — for any reason — it performs no
output-file action at all: the destination is opened (with truncation)
and written only on the all-success path. -/
theorem C7_no_output_on_failure (input password : List Nat)
    (h : ∀ m, (decrypt_file input password).1 ≠ .ok m) :
    DecEvent.openOutputTruncate ∉ (decrypt_file input password).2 ∧
    ∀ d, DecEvent.writeOutput d ∉ (decrypt_file input password).2 := by
  rcases decrypt_file_failure_events input password with ⟨m, d, hm⟩ | he | he
  · exact absurd (by rw [hm]) (h m)
  · rw [he]
    simp
  · rw [he]
    simp

/-- C7 witness: a failing input (empty file) has an empty action
trace. -/
theorem C7_no_output_on_failure_witness :
    DecEvent.openOutputTruncate ∉ (decrypt_file [] []).2 ∧
    ∀ d, DecEvent.writeOutput d ∉ (decrypt_file [] []).2 :=
  C7_no_output_on_failure [] []
    (by
      intro m hm
      rw [show decrypt_file [] [] = (.err .ioError, []) from rfl] at hm
      cases hm)

/-- C8: the overwrite schedule is exactly as specified per mode: pass
counts 1/3/7; pattern sequences random — random, zeros, random — and
random, ones, random, 0xAA, 0x55, random, random; every pass writes
chunks of at most the 64 KiB buffer totalling exactly the file length;
and for a non-empty file the trace is seek, chunk writes, sync for each
pass in order, threading the random stream, before the final unlink. -/
theorem C8_overwrite_schedule :
    (SecureDeleteMode.Quick.passes = 1 ∧ SecureDeleteMode.Standard.passes = 3 ∧
      SecureDeleteMode.Paranoid.passes = 7) ∧
    ((List.range 1).map (patternForPass .Quick) = [.Random] ∧
     (List.range 3).map (patternForPass .Standard) =
       [.Random, .Zeros, .Random] ∧
     (List.range 7).map (patternForPass .Paranoid) =
       [.Random, .Ones, .Random, .Pattern 0xAA, .Pattern 0x55, .Random,
         .Random]) ∧
    (∀ (n : Nat) (pat : OverwritePattern) (rng : Nat → Nat) (ctr : Nat),
      writeTotal (overwrite_with_pattern n pat rng ctr).1 = n ∧
      ∀ e ∈ (overwrite_with_pattern n pat rng ctr).1,
        ∃ c k, e = .write (fillBuf pat rng c k) ∧ 0 < k ∧ k ≤ BUFFER_SIZE) ∧
    (∀ (content : List Nat) (rng : Nat → Nat), content ≠ [] →
      (secure_delete content .Quick rng =
        .seekStart ::
          (overwrite_with_pattern content.length .Random rng 0).1 ++
          [.syncAll, .removeFile]) ∧
      (secure_delete content .Standard rng =
        .seekStart ::
          (overwrite_with_pattern content.length .Random rng 0).1 ++
          .syncAll :: .seekStart ::
          (overwrite_with_pattern content.length .Zeros rng
            content.length).1 ++
          .syncAll :: .seekStart ::
          (overwrite_with_pattern content.length .Random rng
            content.length).1 ++
          [.syncAll, .removeFile]) ∧
      (secure_delete content .Paranoid rng =
        .seekStart ::
          (overwrite_with_pattern content.length .Random rng 0).1 ++
          .syncAll :: .seekStart ::
          (overwrite_with_pattern content.length .Ones rng
            content.length).1 ++
          .syncAll :: .seekStart ::
          (overwrite_with_pattern content.length .Random rng
            content.length).1 ++
          .syncAll :: .seekStart ::
          (overwrite_with_pattern content.length (.Pattern 0xAA) rng
            (2 * content.length)).1 ++
          .syncAll :: .seekStart ::
          (overwrite_with_pattern content.length (.Pattern 0x55) rng
            (2 * content.length)).1 ++
          .syncAll :: .seekStart ::
          (overwrite_with_pattern content.length .Random rng
            (2 * content.length)).1 ++
          .syncAll :: .seekStart ::
          (overwrite_with_pattern content.length .Random rng
            (3 * content.length)).1 ++
          [.syncAll, .removeFile])) := by
  refine ⟨⟨rfl, rfl, rfl⟩, ⟨by decide, by decide, by decide⟩, ?_, ?_⟩
  · intro n pat rng ctr
    exact ⟨overwrite_writeTotal n pat rng ctr, overwrite_writes n pat rng ctr⟩
  · intro content rng hne
    have hlen : content.length ≠ 0 := by
      simpa [List.length_eq_zero] using hne
    refine ⟨?_, ?_, ?_⟩
    · simp only [secure_delete, if_neg hlen, SecureDeleteMode.passes,
        show List.range 1 = [0] from rfl, runPasses, patternForPass,
        overwrite_ctr]
      simp
    · simp only [secure_delete, if_neg hlen, SecureDeleteMode.passes,
        show List.range 3 = [0, 1, 2] from rfl, runPasses, patternForPass,
        overwrite_ctr]
      simp
    · simp only [secure_delete, if_neg hlen, SecureDeleteMode.passes,
        show List.range 7 = [0, 1, 2, 3, 4, 5, 6] from rfl, runPasses,
        patternForPass, overwrite_ctr]
      simp
      ring_nf

/-- C8 witness: a concrete pass total and a concrete one-byte Quick
deletion trace. -/
theorem C8_overwrite_schedule_witness :
    writeTotal (overwrite_with_pattern 5 OverwritePattern.Zeros
      (fun _ => 7) 0).1 = 5 ∧
    secure_delete [9] SecureDeleteMode.Quick (fun _ => 7) =
      DelEvent.seekStart ::
        (overwrite_with_pattern ([9] : List Nat).length OverwritePattern.Random
          (fun _ => 7) 0).1 ++ [DelEvent.syncAll, DelEvent.removeFile] :=
  ⟨(C8_overwrite_schedule.2.2.1 5 .Zeros (fun _ => 7) 0).1,
   (C8_overwrite_schedule.2.2.2 [9] (fun _ => 7) (by decide)).1⟩

/-- C9: every secure-deletion run ends by unlinking the path (so after
a successful return the file no longer exists), and a zero-length file
is unlinked directly with no overwrite pass. -/
theorem C9_delete_removes_path (content : List Nat)
    (mode : SecureDeleteMode) (rng : Nat → Nat) :
    (secure_delete content mode rng).getLast? = some .removeFile ∧
    (content = [] → secure_delete content mode rng = [.removeFile]) := by
  unfold secure_delete
  by_cases h : content.length = 0
  · simp [h]
  · rw [if_neg h]
    constructor
    · exact List.getLast?_concat _
    · intro hc
      rw [hc] at h
      simp at h

/-- C9 witness. -/
theorem C9_delete_removes_path_witness :
    (secure_delete [] SecureDeleteMode.Quick (fun _ => 0)).getLast? =
      some DelEvent.removeFile ∧
    (([] : List Nat) = [] →
      secure_delete [] SecureDeleteMode.Quick (fun _ => 0) =
        [DelEvent.removeFile]) :=
  C9_delete_removes_path [] SecureDeleteMode.Quick (fun _ => 0)

end Cryptocrate
